import Mathlib

/-!
Verification of the Interlink client-side redirection helper
(`src/interlink.js`) against its natural-language specification.

The development shallowly embeds the script's core pipeline:
dynamically-typed JS values are modelled by the inductive `JSVal`,
fallible JS code returns `Except Unit`, and the browser's `URL` /
`URLSearchParams` platform primitives are modelled by a small
WHATWG-style parser (`parseUrl`) and serializer (`JURL.toStr`) with
`application/x-www-form-urlencoded` query handling.

Model notes on deliberate simplifications of the *platform* (never of
the repository's own code):
* JS numbers are modelled as `Int` (no NaN / floats; no claim depends
  on numeric arithmetic beyond truthiness).
* percent-encoding of characters above U+00FF keeps the character
  verbatim instead of emitting UTF-8 byte triples; characters U+0080 to
  U+00FF are encoded as a single percent escape.  All claims only
  exercise ASCII data.
* object property lookup is plain association-list lookup: no prototype
  chain, and duplicate keys resolve to the first binding.
* `new URL` is modelled for absolute `http(s)://host/path?query` URLs,
  for opaque-scheme URLs (`javascript:...`), and for relative
  resolution against a special base.  Fragments are stripped.  A
  special scheme not followed by `//` is rejected by the model.
-/

/-! ## JS value model -/

/-- Model of a dynamically-typed JavaScript value.  A zero-argument
function is modelled by the value its invocation produces; `fn none`
is a producer whose invocation throws. -/
inductive JSVal where
  | undefined
  | null
  | bool (b : Bool)
  | num (n : Int)
  | str (s : String)
  | arr (elems : List JSVal)
  | obj (fields : List (String × JSVal))
  | fn (res : Option JSVal)

/-- JS truthiness. -/
def truthy : JSVal → Bool
  | .undefined => false
  | .null => false
  | .bool b => b
  | .num n => n != 0
  | .str s => s != ""
  | .arr _ => true
  | .obj _ => true
  | .fn _ => true

/-- Property access `v[k]`; absent properties give `undefined`. -/
def getField (v : JSVal) (k : String) : JSVal :=
  match v with
  | .obj fs =>
    match fs.find? (fun kv => kv.1 == k) with
    | some kv => kv.2
    | none => .undefined
  | _ => .undefined

/-- JS strict equality `===` restricted to primitive comparisons; the
script only ever compares strings with it.  Reference equality of
objects/arrays/functions is not modelled and yields `false`. -/
def jsStrictEq (a b : JSVal) : Bool :=
  match a, b with
  | .str x, .str y => x == y
  | .num x, .num y => x == y
  | .bool x, .bool y => x == y
  | .undefined, .undefined => true
  | .null, .null => true
  | _, _ => false

/-- JS `a || b`. -/
def jsOr (a b : JSVal) : JSVal := if truthy a then a else b

/-- JS `a ?? b`. -/
def jsCoalesce (a b : JSVal) : JSVal :=
  match a with
  | .undefined => b
  | .null => b
  | _ => a

mutual

/-- JS `String(v)` coercion (function source text is not modelled). -/
def jsToStr : JSVal → String
  | .undefined => "undefined"
  | .null => "null"
  | .bool b => if b then "true" else "false"
  | .num n => toString n
  | .str s => s
  | .arr xs => String.intercalate "," (jsToStrElems xs)
  | .obj _ => "[object Object]"
  | .fn _ => "function"

/-- Elements of `Array.prototype.toString`: `null`/`undefined` render
as the empty string. -/
def jsToStrElems : List JSVal → List String
  | [] => []
  | .undefined :: rest => "" :: jsToStrElems rest
  | .null :: rest => "" :: jsToStrElems rest
  | v :: rest => jsToStr v :: jsToStrElems rest

end

/-- Whitespace for the model of `String.prototype.trim` (the JS set
also holds some exotic Unicode spaces; no claim depends on them). -/
def isJsWs (c : Char) : Bool :=
  c == ' ' || c == '\t' || c == '\n' || c == '\r'

/-- Strip leading and trailing whitespace from a character list. -/
def trimChars (cs : List Char) : List Char :=
  ((cs.dropWhile isJsWs).reverse.dropWhile isJsWs).reverse

/-- Model of `String.prototype.trim`. -/
def strTrim (s : String) : String := ⟨trimChars s.data⟩

/-- JS `.trim()` method call: succeeds only on strings, every other
receiver raises a `TypeError`. -/
def jsTrim (v : JSVal) : Except Unit String :=
  match v with
  | .str s => .ok (strTrim s)
  | _ => .error ()

/-- JS `typeof v === 'object'`. -/
def isObjectType (v : JSVal) : Bool :=
  match v with
  | .obj _ => true
  | .arr _ => true
  | .null => true
  | _ => false

/-! ## Sanitizers (`sanitizeId`, line 101) -/

/-- Character class `[A-Za-z0-9_-]` of the identifier regex. -/
def isIdChar (c : Char) : Bool :=
  ('A' ≤ c && c ≤ 'Z') || ('a' ≤ c && c ≤ 'z') || ('0' ≤ c && c ≤ '9')
    || c == '_' || c == '-'

/-- `sanitizeId` (line 101): `/^[A-Za-z0-9_-]+$/.test(v) ? v : ''`. -/
def sanitizeId (v : String) : String :=
  if !v.data.isEmpty && v.data.all isIdChar then v else ""

/-- Spec-side operational matcher for the regular expression
`^[A-Za-z0-9_-]+$`: one or more identifier characters spanning the
whole input. -/
def idRegexAccepts : List Char → Bool
  | [] => false
  | [c] => isIdChar c
  | c :: rest => isIdChar c && idRegexAccepts rest

/-! ## Dataset resolver (`resolveDataset`, lines 93-99) -/

/-- Ambient bindings consulted by `resolveDataset`: the lexically
scoped `data` binding and `globalThis.data`.  `none` means the binding
does not exist; a binding holding `undefined` fails the
`typeof ... !== 'undefined'` test just like an absent one. -/
structure DataEnv where
  dataLex : Option JSVal
  dataGlobal : Option JSVal

/-- `typeof b !== 'undefined'` for an optional binding. -/
def bindingDefined : Option JSVal → Bool
  | some .undefined => false
  | some _ => true
  | none => false

/-- `resolveDataset` (lines 93-99).  The `try { if (typeof ds ===
'function') ds = ds(); } catch {}` step: when the producer throws, the
assignment never happens and `ds` keeps the function value. -/
def resolveDataset (env : DataEnv) (ds0 : JSVal) : JSVal :=
  let ds := match ds0 with
    | .fn (some v) => v
    | .fn none => ds0
    | other => other
  if truthy ds then ds
  else if bindingDefined env.dataLex then env.dataLex.getD .undefined
  else if bindingDefined env.dataGlobal then env.dataGlobal.getD .undefined
  else .undefined

/-! ## Item resolver (`defaultResolveItem` lines 103-117,
`normalizeItem` lines 119-131) -/

/-- A normalized variant entry: `{ variant, param }`, both produced by
`.trim()` and hence strings. -/
structure Variant where
  variant : String
  param : String

/-- The canonical item shape produced by `normalizeItem`.  The `id` and
`title` fields are computed with `||` chains and may therefore be any
JS value; `description` and `url` are always strings. -/
structure Item where
  id : JSVal
  title : JSVal
  description : String
  url : String
  variants : List Variant

/-- One step of the `x.variants.map(...)` callback (lines 126-128):
objects are normalized, everything else maps to `null` (here `none`);
a truthy non-string `variant`/`name`/`param`/`params` field makes
`.trim()` throw. -/
def normVariant (v : JSVal) : Except Unit (Option Variant) :=
  if truthy v && isObjectType v then
    match jsTrim (jsCoalesce (getField v "variant")
        (jsCoalesce (getField v "name") (.str ""))) with
    | .error e => .error e
    | .ok a =>
      match jsTrim (jsCoalesce (getField v "param")
          (jsCoalesce (getField v "params") (.str ""))) with
      | .error e => .error e
      | .ok b => .ok (some { variant := a, param := b })
  else .ok none

/-- `x.variants.map(...).filter(Boolean)` (lines 125-129). -/
def normVariants : List JSVal → Except Unit (List Variant)
  | [] => .ok []
  | v :: rest =>
    match normVariant v with
    | .error e => .error e
    | .ok o =>
      match normVariants rest with
      | .error e => .error e
      | .ok tl =>
        .ok (match o with | some w => w :: tl | none => tl)

/-- The `variants` part of `normalizeItem` (lines 125-129): a
non-array `variants` field yields `[]`. -/
def normVariantsOf (x : JSVal) : Except Unit (List Variant) :=
  match getField x "variants" with
  | .arr vs => normVariants vs
  | _ => .ok []

/-- `normalizeItem` (lines 119-131). -/
def normalizeItem (x : JSVal) (id : String) : Except Unit Item :=
  match jsTrim (jsOr (getField x "description") (.str "")) with
  | .error e => .error e
  | .ok desc =>
    match normVariantsOf x with
    | .error e => .error e
    | .ok vars =>
      .ok {
        id := jsOr (getField x "id") (jsOr (getField x "quizId") (.str id)),
        title := jsOr (getField x "title") (.str id),
        description := desc,
        url := match getField x "url" with | .str s => s | _ => "",
        variants := vars }

/-- The receiver of `(v || '').trim()` is a string exactly when `v` is
a string or falsy. -/
def trimmableField (v : JSVal) : Bool :=
  match v with
  | .str _ => true
  | _ => !truthy v

/-- The receiver of `(a ?? b ?? '').trim()` is a string. -/
def coalesceIsStr (a b : JSVal) : Bool :=
  match jsCoalesce a (jsCoalesce b (.str "")) with
  | .str _ => true
  | _ => false

/-- A raw variant entry that `normVariant` can process without a
`TypeError`. -/
def variantEntrySafe (v : JSVal) : Bool :=
  !(truthy v && isObjectType v)
    || (coalesceIsStr (getField v "variant") (getField v "name")
        && coalesceIsStr (getField v "param") (getField v "params"))

/-- A raw record whose trimmed fields are all textual-or-absent, so
that `normalizeItem` cannot throw on it. -/
def itemTrimSafe (x : JSVal) : Bool :=
  trimmableField (getField x "description")
    && (match getField x "variants" with
        | .arr vs => vs.all variantEntrySafe
        | _ => true)

/-- The dual-field match predicate `x && (x.id === id || x.quizId ===
id)` used by both dataset shapes (lines 107 and 113). -/
def rawMatches (id : String) (x : JSVal) : Bool :=
  truthy x &&
    (jsStrictEq (getField x "id") (.str id)
      || jsStrictEq (getField x "quizId") (.str id))

/-- The raw record `defaultResolveItem` selects, if any: `ds.find(...)`
for arrays (line 107); direct key lookup guarded by truthiness, then a
scan of `Object.values(ds)` for keyed mappings (lines 111-113). -/
def lookupRaw (id : String) (ds : JSVal) : Option JSVal :=
  match ds with
  | .arr xs => xs.find? (rawMatches id)
  | .obj fs =>
    let direct := getField (.obj fs) id
    if truthy direct then some direct
    else (fs.map (fun kv => kv.2)).find? (rawMatches id)
  | _ => none

/-- The fallback item `{ id, title: id, description: '', url: '',
variants: [] }` (line 104). -/
def fallbackItem (id : String) : Item :=
  { id := .str id, title := .str id, description := "", url := "",
    variants := [] }

/-- `defaultResolveItem` (lines 103-117). -/
def defaultResolveItem (id : String) (ds : JSVal) : Except Unit Item :=
  if !truthy ds then .ok (fallbackItem id)
  else match ds with
  | .arr xs =>
    match lookupRaw id (.arr xs) with
    | some x => normalizeItem x id
    | none => .ok (fallbackItem id)
  | .obj fs =>
    match lookupRaw id (.obj fs) with
    | some x => normalizeItem x id
    | none => .ok (fallbackItem id)
  | _ => .ok (fallbackItem id)

/-! ## Percent-encoding model (`application/x-www-form-urlencoded`) -/

/-- Upper-case hexadecimal digit for a value below 16. -/
def hexDigitChar (n : Nat) : Char :=
  if n < 10 then Char.ofNat (48 + n) else Char.ofNat (55 + n)

def isHexDigit (c : Char) : Bool :=
  ('0' ≤ c && c ≤ '9') || ('A' ≤ c && c ≤ 'F') || ('a' ≤ c && c ≤ 'f')

def hexVal (c : Char) : Nat :=
  if '0' ≤ c && c ≤ '9' then c.toNat - 48
  else if 'A' ≤ c && c ≤ 'F' then c.toNat - 55
  else if 'a' ≤ c && c ≤ 'f' then c.toNat - 87
  else 0

/-- A percent escape `%XY` for a byte value. -/
def hex2 (n : Nat) : List Char :=
  ['%', hexDigitChar (n / 16), hexDigitChar (n % 16)]

/-- Characters serialized verbatim by `URLSearchParams`. -/
def isFormSafe (c : Char) : Bool :=
  ('A' ≤ c && c ≤ 'Z') || ('a' ≤ c && c ≤ 'z') || ('0' ≤ c && c ≤ '9')
    || c == '*' || c == '-' || c == '.' || c == '_'

/-- Form-urlencoded serialization of one character (code points above
U+00FF are kept verbatim instead of emitting UTF-8 byte sequences; see
the model notes). -/
def formEncodeChar (c : Char) : List Char :=
  if c == ' ' then ['+']
  else if isFormSafe c then [c]
  else if c.toNat ≤ 255 then hex2 c.toNat
  else [c]

def formEncode : List Char → List Char
  | [] => []
  | c :: cs => formEncodeChar c ++ formEncode cs

/-- Form-urlencoded parsing, fueled so that the recursion stays
structural: `+` becomes a space, a valid `%XY` a code point, a
malformed escape keeps the `%` and rescans after it. -/
def formDecodeFuel : Nat → List Char → List Char
  | _, [] => []
  | 0, cs => cs
  | fuel + 1, c :: rest =>
    if c == '+' then ' ' :: formDecodeFuel fuel rest
    else if c == '%' then
      match rest with
      | h1 :: h2 :: rest2 =>
        if isHexDigit h1 && isHexDigit h2 then
          Char.ofNat (16 * hexVal h1 + hexVal h2) :: formDecodeFuel fuel rest2
        else '%' :: formDecodeFuel fuel rest
      | _ => '%' :: formDecodeFuel fuel rest
    else c :: formDecodeFuel fuel rest

/-- Form-urlencoded parsing with enough fuel for the whole input. -/
def formDecode (cs : List Char) : List Char := formDecodeFuel cs.length cs

/-! ## Query strings and `URLSearchParams` -/

/-- Split a character list at every occurrence of `sep` (like JS
`String.prototype.split` with a single-character separator). -/
def splitOnChar (sep : Char) : List Char → List (List Char)
  | [] => [[]]
  | c :: rest =>
    if c == sep then [] :: splitOnChar sep rest
    else
      match splitOnChar sep rest with
      | [] => [[c]]
      | g :: gs => (c :: g) :: gs

def intercalateChar (sep : Char) : List (List Char) → List Char
  | [] => []
  | [x] => x
  | x :: xs => x ++ sep :: intercalateChar sep xs

/-- Serialization of decoded query pairs, as done by `URL.toString`
after `searchParams` has been touched. -/
def serializeQuery (q : List (String × String)) : List Char :=
  intercalateChar '&'
    (q.map (fun kv => formEncode kv.1.data ++ '=' :: formEncode kv.2.data))

/-- One `key=value` piece of a query string; a piece without `=` keeps
the whole text as key with an empty value; empty pieces are dropped. -/
def parseQueryPiece (piece : List Char) : Option (String × String) :=
  if piece.isEmpty then none
  else
    let k := piece.takeWhile (fun c => c != '=')
    if k.length = piece.length then some (⟨formDecode k⟩, "")
    else some (⟨formDecode k⟩, ⟨formDecode (piece.drop (k.length + 1))⟩)

/-- `URLSearchParams` parsing of a raw query string (without `?`). -/
def parseQuery (cs : List Char) : List (String × String) :=
  (splitOnChar '&' cs).filterMap parseQueryPiece

/-- `URLSearchParams.set`: replace the value of the first entry with
the given key, delete every later entry with that key, or append a new
entry at the end when the key is absent. -/
def setParam : List (String × String) → String → String → List (String × String)
  | [], k, v => [(k, v)]
  | (k', v') :: rest, k, v =>
    if k' == k then (k, v) :: rest.filter (fun kv => kv.1 != k)
    else (k', v') :: setParam rest k v

/-- `URLSearchParams.get`: the value of the first entry with the key,
or `none`. -/
def getParam (q : List (String × String)) (k : String) : Option String :=
  match q.find? (fun kv => kv.1 == k) with
  | some kv => some kv.2
  | none => none

/-! ## The `URL` platform object -/

/-- Model of a parsed WHATWG URL: either a special (`http(s)`) URL with
authority, path and decoded query pairs, or a URL with a non-special
scheme and an opaque remainder (e.g. `javascript:alert(1)`). -/
inductive JURL where
  | special (scheme : String) (host : String) (path : String)
      (query : List (String × String))
  | nonSpecial (scheme : String) (rest : String)
deriving DecidableEq

/-- `URL.prototype.protocol`: the scheme followed by `:`. -/
def protocolOf : JURL → String
  | .special sch _ _ _ => sch ++ ":"
  | .nonSpecial sch _ => sch ++ ":"

/-- `URL.prototype.toString`. -/
def JURL.toStr : JURL → String
  | .special sch host path q =>
    sch ++ "://" ++ host ++ path
      ++ (if q.isEmpty then "" else "?" ++ String.mk (serializeQuery q))
  | .nonSpecial sch rest => sch ++ ":" ++ rest

def isSchemeStart (c : Char) : Bool :=
  ('A' ≤ c && c ≤ 'Z') || ('a' ≤ c && c ≤ 'z')

def isSchemeChar (c : Char) : Bool :=
  isSchemeStart c || ('0' ≤ c && c ≤ '9') || c == '+' || c == '-' || c == '.'

/-- Split `scheme:rest` at the first colon, requiring every scheme
character to be valid. -/
def takeScheme : List Char → Option (List Char × List Char)
  | [] => none
  | c :: rest =>
    if c == ':' then some ([], rest)
    else if isSchemeChar c then
      match takeScheme rest with
      | some (sch, after) => some (c :: sch, after)
      | none => none
    else none

/-- A scheme must additionally start with an ASCII letter. -/
def splitScheme (cs : List Char) : Option (List Char × List Char) :=
  match cs with
  | [] => none
  | c :: _ => if isSchemeStart c then takeScheme cs else none

def lowerChar (c : Char) : Char :=
  if 'A' ≤ c && c ≤ 'Z' then Char.ofNat (c.toNat + 32) else c

/-- Everything from the first `#` on is the fragment; the model drops
it up front. -/
def stripFrag (cs : List Char) : List Char :=
  cs.takeWhile (fun c => c != '#')

def isHostDelim (c : Char) : Bool := c == '/' || c == '?' || c == '#'

/-- The path/query tail after the host: an optional `/path`, then an
optional `?query`.  The empty path serializes as `/`. -/
def parsePathQuery (sch : String) (host : List Char) : List Char → Option JURL
  | [] => some (.special sch ⟨host⟩ "/" [])
  | d :: rest =>
    if d == '?' then some (.special sch ⟨host⟩ "/" (parseQuery rest))
    else if d == '/' then
      let p := rest.takeWhile (fun c => c != '?')
      let after := rest.dropWhile (fun c => c != '?')
      match after with
      | [] => some (.special sch ⟨host⟩ ⟨'/' :: p⟩ [])
      | e :: qcs =>
        if e == '?' then some (.special sch ⟨host⟩ ⟨'/' :: p⟩ (parseQuery qcs))
        else some (.special sch ⟨host⟩ ⟨'/' :: p⟩ [])
    else none

/-- Parse `host[/path][?query]` after `scheme://`; an empty host is a
parse failure (`new URL("http://")` throws). -/
def parseAuthority (sch : String) (cs : List Char) : Option JURL :=
  let host := cs.takeWhile (fun c => !isHostDelim c)
  let rem := cs.dropWhile (fun c => !isHostDelim c)
  if host.isEmpty then none
  else parsePathQuery sch host rem

/-- The base path up to and including its last `/`, for relative
resolution. -/
def dirPart (path : List Char) : List Char :=
  ((path.reverse.takeWhile (fun c => c != '/')).reverse : List Char) |>
    fun tl => path.take (path.length - tl.length)

/-- Resolution of a scheme-less input against a base URL (the model
covers network-path, absolute-path, query-only, empty and plain
relative references against a special base). -/
def parseRelative (base : JURL) (cs : List Char) : Option JURL :=
  match base with
  | .nonSpecial _ _ => none
  | .special bsch bhost bpath bq =>
    match cs with
    | [] => some (.special bsch bhost bpath bq)
    | '/' :: '/' :: rest => parseAuthority bsch rest
    | '?' :: qcs => some (.special bsch bhost bpath (parseQuery qcs))
    | '/' :: more =>
      let p := more.takeWhile (fun c => c != '?')
      let rest := more.dropWhile (fun c => c != '?')
      match rest with
      | '?' :: qcs => some (.special bsch bhost ⟨'/' :: p⟩ (parseQuery qcs))
      | _ => some (.special bsch bhost ⟨'/' :: p⟩ [])
    | _ =>
      let merged := dirPart bpath.data ++ cs
      let p := merged.takeWhile (fun c => c != '?')
      let rest := merged.dropWhile (fun c => c != '?')
      match rest with
      | '?' :: qcs => some (.special bsch bhost ⟨p⟩ (parseQuery qcs))
      | _ => some (.special bsch bhost ⟨p⟩ [])

/-- `new URL(s, base?)`: an input with a valid scheme is parsed
absolutely (a special scheme must be followed by `//`, a non-special
scheme keeps an opaque remainder); otherwise the input is resolved
against the base, and parsing fails without one. -/
def parseUrl (s : String) (base : Option JURL) : Option JURL :=
  let cs := stripFrag s.data
  match splitScheme cs with
  | some (sch, after) =>
    let schL : String := ⟨sch.map lowerChar⟩
    if schL == "http" || schL == "https" then
      match after with
      | a :: b :: rest =>
        if a == '/' && b == '/' then parseAuthority schL rest else none
      | _ => none
    else some (.nonSpecial schL ⟨after⟩)
  | none =>
    match base with
    | some b => parseRelative b cs
    | none => none

/-- `u.searchParams.set(k, v)` (a no-op on non-special URLs in the
model; the pipeline only reaches it for URLs that are later required
to be `http(s)` anyway). -/
def urlSetParam (u : JURL) (k v : String) : JURL :=
  match u with
  | .special sch h p q => .special sch h p (setParam q k v)
  | .nonSpecial sch rest => .nonSpecial sch rest

/-- The query pairs of a URL. -/
def queryOf : JURL → List (String × String)
  | .special _ _ _ q => q
  | .nonSpecial _ _ => []

/-- The case-insensitive protocol test `/^https?:$/i.test(p)`. -/
def httpProtocolTest (p : String) : Bool :=
  let q : String := ⟨p.data.map lowerChar⟩
  q == "http:" || q == "https:"

/-- `sanitizeFinalUrl` (lines 154-160): parse against the page origin,
reject anything that is not `http(s)`, return the normalized string. -/
def sanitizeFinalUrl (origin : JURL) (url : String) : String :=
  match parseUrl url (some origin) with
  | none => ""
  | some u => if httpProtocolTest (protocolOf u) then JURL.toStr u else ""

/-! ## `appendParamString` (lines 140-152) -/

/-- Split one parameter entry at its first `=`; entries without `=` or
with an empty key are skipped (`idx <= 0`). -/
def splitEntryAtEq (e : List Char) : Option (String × String) :=
  let k := e.takeWhile (fun c => c != '=')
  if k.length = 0 || k.length = e.length then none
  else some (⟨k⟩, ⟨e.drop (k.length + 1)⟩)

/-- The key/value entries `appendParamString` extracts: split on `&`,
trim each entry, drop blank entries, split at the first `=` (lines
143-148). -/
def appendParamPairs (paramStr : String) : List (String × String) :=
  (((splitOnChar '&' paramStr.data).map trimChars).filter
    (fun e => !e.isEmpty)).filterMap splitEntryAtEq

/-- The `searchParams.set` loop of `appendParamString` on decoded query
pairs (lines 144-150). -/
def appendParamCore (q : List (String × String)) (paramStr : String) :
    List (String × String) :=
  (appendParamPairs paramStr).foldl (fun acc kv => setParam acc kv.1 kv.2) q

/-- `appendParamString` (lines 140-152); `new URL(url)` throwing is the
`error` case. -/
def appendParamString (url : String) (paramStr : String) : Except Unit String :=
  if paramStr == "" then .ok url
  else
    match parseUrl url none with
    | none => .error ()
    | some (.special sch h p q) =>
      .ok (JURL.toStr (.special sch h p (appendParamCore q paramStr)))
    | some (.nonSpecial sch rest) => .ok (JURL.toStr (.nonSpecial sch rest))

/-- Modelled from the claim wording of C6 (no trimming of entries):
split on `&`, split each entry at its first `=`, skip entries without
`=` or with an empty key. -/
def claimMergePairs (paramStr : String) : List (String × String) :=
  (splitOnChar '&' paramStr.data).filterMap splitEntryAtEq

/-- The merge as the C6 claim words describe it. -/
def claimMergeCore (q : List (String × String)) (paramStr : String) :
    List (String × String) :=
  (claimMergePairs paramStr).foldl (fun acc kv => setParam acc kv.1 kv.2) q

/-- The last value assigned to key `k` by a pair list, with a default
for when the list never assigns `k`. -/
def lastVal (pairs : List (String × String)) (k : String)
    (dflt : Option String) : Option String :=
  match pairs with
  | [] => dflt
  | (k', v) :: rest => lastVal rest k (if k' == k then some v else dflt)

/-! ## The URL-building pipeline of `Interlink.render` (lines 25-57) -/

/-- `encodeURIComponent` unreserved set. -/
def isUriUnreserved (c : Char) : Bool :=
  ('A' ≤ c && c ≤ 'Z') || ('a' ≤ c && c ≤ 'z') || ('0' ≤ c && c ≤ '9')
    || c == '-' || c == '_' || c == '.' || c == '!' || c == '~' || c == '*'
    || c == '\'' || c == '(' || c == ')'

def encodeURIChars : List Char → List Char
  | [] => []
  | c :: cs =>
    (if isUriUnreserved c then [c]
     else if c.toNat ≤ 255 then hex2 c.toNat else [c]) ++ encodeURIChars cs

/-- Model of `encodeURIComponent` (same U+00FF simplification as the
form encoding). -/
def encodeURIComponent (s : String) : String := ⟨encodeURIChars s.data⟩

/-- Replace every occurrence of `pat` in the list, left to right, the
replacement not being rescanned; fueled recursion, fuel is the input
length. -/
def replaceFuel (pat repl : List Char) : Nat → List Char → List Char
  | _, [] => []
  | 0, cs => cs
  | fuel + 1, c :: cs =>
    if pat.isPrefixOf (c :: cs) then
      repl ++ replaceFuel pat repl fuel ((c :: cs).drop pat.length)
    else c :: replaceFuel pat repl fuel cs

/-- The `{id}` substitution `urlRaw.replace(/{id}/g, ...)` (line 29). -/
def strReplaceIdToken (s : String) (repl : String) : String :=
  ⟨replaceFuel "{id}".data repl.data s.data.length s.data⟩

/-- `(item && typeof item.url === 'string') ? item.url.trim() : ''`
(line 25). -/
def urlRawOf (item : JSVal) : String :=
  if truthy item then
    match getField item "url" with
    | .str s => strTrim s
    | _ => ""
  else ""

/-- The URL template after `{id}` substitution (line 29). -/
def substUrlOf (item : JSVal) : String :=
  strReplaceIdToken (urlRawOf item)
    (encodeURIComponent (jsToStr (getField item "id")))

/-- The advisory allow-list check (lines 37-39): with a non-empty
`variants` array, some truthy entry must satisfy
`String(v.variant) === variantRaw`; otherwise the override is allowed
by default. -/
def variantAllowed (item : JSVal) (variantRaw : String) : Bool :=
  match getField item "variants" with
  | .arr vs =>
    if vs.isEmpty then true
    else vs.any (fun v => truthy v && (jsToStr (getField v "variant") == variantRaw))
  | _ => true

/-- Outcome of the URL-building part of `Interlink.render`:
`notOpenable` is the line-26 error, `invalidUrl` the line-57 error,
`runtimeError` a throw of `new URL(urlStr)` on line 47 (caught by the
top-level handler), and `opened` carries the final URL, whether the
variant warning fired, and the display label. -/
inductive BuildOutcome where
  | notOpenable
  | invalidUrl
  | runtimeError
  | opened (url : String) (warned : Bool) (variantLabel : String)
deriving DecidableEq

/-- The URL-construction pipeline of `Interlink.render`, steps 3-6
(lines 25-57), with `variantRaw` the already-trimmed
`?variant=`/`?v=` override (line 32). -/
def buildFinalUrl (origin : JURL) (item : JSVal) (variantRaw : String) :
    BuildOutcome :=
  if urlRawOf item == "" then .notOpenable
  else if variantRaw == "" then
    let s := sanitizeFinalUrl origin (substUrlOf item)
    if s == "" then .invalidUrl else .opened s false ""
  else
    match parseUrl (substUrlOf item) none with
    | none => .runtimeError
    | some u =>
      let u2 := urlSetParam u "variant" variantRaw
      let s := sanitizeFinalUrl origin (JURL.toStr u2)
      if s == "" then .invalidUrl
      else .opened s (!variantAllowed item variantRaw) variantRaw

/-- A concrete page origin used by the closed instances below. -/
def demoOrigin : JURL := .special "https" "portal.test" "/" []

/-! # Theorems -/

/-! ## Generic helper lemmas about `URLSearchParams` pairs -/

theorem getParam_nil (k : String) : getParam [] k = none := rfl

theorem getParam_cons (kv : String × String) (rest : List (String × String))
    (k : String) :
    getParam (kv :: rest) k = if kv.1 == k then some kv.2 else getParam rest k := by
  by_cases h : kv.1 = k <;> simp [getParam, List.find?_cons, h]

theorem getParam_filter_self (rest : List (String × String)) (k : String) :
    getParam (rest.filter (fun kv => kv.1 != k)) k = none := by
  induction rest with
  | nil => rfl
  | cons kv rest ih =>
    by_cases h : kv.1 = k <;> simp [List.filter_cons, h, getParam_cons, ih]

theorem getParam_filter_other (rest : List (String × String)) (k k' : String)
    (hne : k' ≠ k) :
    getParam (rest.filter (fun kv => kv.1 != k)) k' = getParam rest k' := by
  induction rest with
  | nil => rfl
  | cons kv rest ih =>
    by_cases h : kv.1 = k
    · simp [List.filter_cons, h, getParam_cons, ih, Ne.symm hne]
    · simp [List.filter_cons, h, getParam_cons, ih]

theorem getParam_setParam (q : List (String × String)) (k v k' : String) :
    getParam (setParam q k v) k' = if k == k' then some v else getParam q k' := by
  induction q with
  | nil =>
    by_cases h : k = k' <;> simp [setParam, getParam_cons, getParam_nil, h]
  | cons kv rest ih =>
    by_cases h1 : kv.1 = k
    · by_cases h2 : k = k'
      · simp [setParam, h1, h2, getParam_cons]
      · have hne : k' ≠ k := fun hh => h2 hh.symm
        simp [setParam, h1, h2, getParam_cons,
          getParam_filter_other rest k k' hne]
    · by_cases h2 : k = k'
      · have h3 : ¬ kv.1 = k' := h2 ▸ h1
        subst h2
        simp [setParam, h1, h3, getParam_cons, ih]
      · simp [setParam, h1, h2, getParam_cons, ih]

theorem setParam_idem (q : List (String × String)) (k v : String) :
    setParam (setParam q k v) k v = setParam q k v := by
  induction q with
  | nil => simp [setParam]
  | cons kv rest ih =>
    by_cases h1 : kv.1 = k
    · simp [setParam, h1, List.filter_filter]
    · simp [setParam, h1, ih]

theorem getParam_foldl_setParam (pairs : List (String × String))
    (q : List (String × String)) (k : String) :
    getParam (pairs.foldl (fun acc kv => setParam acc kv.1 kv.2) q) k =
      lastVal pairs k (getParam q k) := by
  induction pairs generalizing q with
  | nil => rfl
  | cons kv rest ih =>
    show getParam (rest.foldl (fun acc kv => setParam acc kv.1 kv.2)
      (setParam q kv.1 kv.2)) k = lastVal rest k (if kv.1 == k then some kv.2
        else getParam q k)
    rw [ih, getParam_setParam]

theorem lastVal_of_no_key (pairs : List (String × String)) (k : String)
    (d : Option String) (h : ∀ kv ∈ pairs, kv.1 ≠ k) :
    lastVal pairs k d = d := by
  induction pairs generalizing d with
  | nil => rfl
  | cons kv rest ih =>
    have hne : kv.1 ≠ k := h kv (List.mem_cons_self kv rest)
    show lastVal rest k (if kv.1 == k then some kv.2 else d) = d
    rw [if_neg (by simp [hne])]
    exact ih d (fun kv2 hm => h kv2 (List.mem_cons_of_mem kv hm))

/-! ## Claim C8 -/

theorem idRegexAccepts_eq_all (cs : List Char) :
    idRegexAccepts cs = (!cs.isEmpty && cs.all isIdChar) := by
  induction cs with
  | nil => rfl
  | cons c rest ih =>
    cases rest with
    | nil => simp [idRegexAccepts]
    | cons d tl =>
      simp only [idRegexAccepts] at ih ⊢
      rw [ih]
      simp [List.all_cons]

/-- Claim C8 (confirmed): identifier sanitization returns the input
unchanged when it fully matches `[A-Za-z0-9_-]+` (as decided by the
operational regex matcher `idRegexAccepts`) and the empty string for
every other input, the empty string included; `sanitizeId` is a total
Lean function, so no exception can occur. -/
theorem sanitizeId_regex_spec (s : String) :
    (idRegexAccepts s.data = true → sanitizeId s = s) ∧
    (idRegexAccepts s.data = false → sanitizeId s = "") := by
  constructor <;> intro h
  · have h2 : (!s.data.isEmpty && s.data.all isIdChar) = true := by
      rw [← idRegexAccepts_eq_all]; exact h
    simp [sanitizeId, h2]
  · have h2 : (!s.data.isEmpty && s.data.all isIdChar) = false := by
      rw [← idRegexAccepts_eq_all]; exact h
    simp [sanitizeId, h2]

/-- Closed instances of `sanitizeId_regex_spec`: a matching input is
kept, a spaced input and the empty input give the empty string. -/
theorem sanitizeId_regex_spec_witness :
    sanitizeId "abc-1_X" = "abc-1_X" ∧ sanitizeId "a b" = "" ∧
      sanitizeId "" = "" :=
  ⟨(sanitizeId_regex_spec "abc-1_X").1 (by decide),
   (sanitizeId_regex_spec "a b").2 (by decide),
   (sanitizeId_regex_spec "").2 (by decide)⟩

/-! ## Claim C1 -/

/-- Claim C1 counterexample: with a throwing zero-argument producer and
no `data` binding anywhere, `resolveDataset` returns the unevaluated
producer function itself — not `undefined` as claimed.  The `catch {}`
swallows the exception, but the assignment `ds = ds()` never happened,
so the function value (which is truthy) survives the `if (ds)` check. -/
theorem resolveDataset_throwing_producer_cex :
    resolveDataset ⟨none, none⟩ (.fn none) = .fn none ∧
      JSVal.fn none ≠ JSVal.undefined :=
  ⟨rfl, fun h => JSVal.noConfusion h⟩

/-- Claim C1 (amended): for a zero-argument producer whose invocation
throws, `resolveDataset` swallows the failure but returns the producer
function itself, whatever `data` bindings exist — the fallback chain
and the `undefined` result are never reached in this case. -/
theorem resolveDataset_throwing_producer (env : DataEnv) :
    resolveDataset env (.fn none) = .fn none := rfl

/-! ## Claim C2 -/

/-- Claim C2 counterexample: the dataset contains an item whose legacy
`quizId` field equals the requested id `"b"`, so the claim demands a
resolved `id` of `"b"`; but the item also carries a truthy canonical
`id` field `"a"`, which `normalizeItem`'s `x.id || x.quizId || id`
chain prefers, so the resolver returns an item whose `id` is `"a"`. -/
theorem defaultResolveItem_legacy_id_cex :
    (defaultResolveItem "b"
      (.arr [.obj [("id", .str "a"), ("quizId", .str "b")]])).map Item.id =
      .ok (.str "a") ∧ JSVal.str "a" ≠ JSVal.str "b" := by
  refine ⟨rfl, fun h => ?_⟩
  injection h with h2
  exact absurd h2 (by decide)

/-- Claim C2 (amended): for a valid (non-empty) identifier, when the
record selected by the dataset lookup has its canonical `id` field
equal to the requested id — or has a falsy canonical field and its
legacy `quizId` field equal to the requested id — and normalization
succeeds, the resolved item's `id` equals the requested id. -/
theorem defaultResolveItem_id_of_match
    (id : String) (ds x : JSVal) (it : Item)
    (hvalid : id ≠ "")
    (hfind : lookupRaw id ds = some x)
    (hid : getField x "id" = .str id ∨
      (truthy (getField x "id") = false ∧ getField x "quizId" = .str id))
    (hok : defaultResolveItem id ds = .ok it) :
    it.id = .str id := by
  have hnorm : normalizeItem x id = .ok it := by
    cases ds with
    | arr xs =>
      simp only [defaultResolveItem, truthy, Bool.not_true, Bool.false_eq_true,
        if_false, hfind] at hok
      exact hok
    | obj fs =>
      simp only [defaultResolveItem, truthy, Bool.not_true, Bool.false_eq_true,
        if_false, hfind] at hok
      exact hok
    | undefined => simp [lookupRaw] at hfind
    | null => simp [lookupRaw] at hfind
    | bool b => simp [lookupRaw] at hfind
    | num n => simp [lookupRaw] at hfind
    | str s => simp [lookupRaw] at hfind
    | fn r => simp [lookupRaw] at hfind
  cases h1 : jsTrim (jsOr (getField x "description") (.str "")) with
  | error e => simp [normalizeItem, h1] at hnorm
  | ok desc =>
    cases h2 : normVariantsOf x with
    | error e => simp [normalizeItem, h1, h2] at hnorm
    | ok vars =>
      simp only [normalizeItem, h1, h2, Except.ok.injEq] at hnorm
      rw [← hnorm]
      rcases hid with h | ⟨hf, hq⟩
      · show jsOr (getField x "id") (jsOr (getField x "quizId") (.str id)) =
          .str id
        rw [h]
        simp [jsOr, truthy, hvalid]
      · show jsOr (getField x "id") (jsOr (getField x "quizId") (.str id)) =
          .str id
        rw [hq]
        simp [jsOr, hf, ite_self]

/-- Closed instance of `defaultResolveItem_id_of_match` on a dataset
whose single record carries the canonical `id` field `"q1"`. -/
theorem defaultResolveItem_id_of_match_witness :
    Item.id ⟨.str "q1", .str "q1", "", "https://x.test/", []⟩ = .str "q1" :=
  defaultResolveItem_id_of_match "q1"
    (.arr [.obj [("id", .str "q1"), ("url", .str "https://x.test/")]])
    (.obj [("id", .str "q1"), ("url", .str "https://x.test/")])
    ⟨.str "q1", .str "q1", "", "https://x.test/", []⟩
    (by decide) rfl (Or.inl rfl) rfl

/-! ## Claim C9 -/

theorem jsOr_empty_is_str (v : JSVal) (h : trimmableField v = true) :
    ∃ t, jsOr v (.str "") = .str t := by
  cases v with
  | str s =>
    by_cases h2 : truthy (.str s) = true
    · exact ⟨s, by simp [jsOr, h2]⟩
    · exact ⟨"", by simp [jsOr, h2]⟩
  | undefined => exact ⟨"", rfl⟩
  | null => exact ⟨"", rfl⟩
  | bool b =>
    cases b with
    | false => exact ⟨"", rfl⟩
    | true => simp [trimmableField, truthy] at h
  | num n =>
    simp [trimmableField, truthy] at h
    exact ⟨"", by simp [jsOr, truthy, h]⟩
  | arr xs => simp [trimmableField, truthy] at h
  | obj fs => simp [trimmableField, truthy] at h
  | fn r => simp [trimmableField, truthy] at h

theorem jsTrim_coalesce_ok (a b : JSVal) (h : coalesceIsStr a b = true) :
    ∃ s, jsTrim (jsCoalesce a (jsCoalesce b (.str ""))) = .ok s := by
  cases hm : jsCoalesce a (jsCoalesce b (.str "")) with
  | str s => exact ⟨strTrim s, rfl⟩
  | undefined => simp [coalesceIsStr, hm] at h
  | null => simp [coalesceIsStr, hm] at h
  | bool b2 => simp [coalesceIsStr, hm] at h
  | num n => simp [coalesceIsStr, hm] at h
  | arr xs => simp [coalesceIsStr, hm] at h
  | obj fs => simp [coalesceIsStr, hm] at h
  | fn r => simp [coalesceIsStr, hm] at h

theorem normVariant_ok (v : JSVal) (h : variantEntrySafe v = true) :
    ∃ o, normVariant v = .ok o := by
  by_cases hg : (truthy v && isObjectType v) = true
  · have h2 : coalesceIsStr (getField v "variant") (getField v "name") = true ∧
        coalesceIsStr (getField v "param") (getField v "params") = true := by
      simpa [variantEntrySafe, hg] using h
    obtain ⟨a, ha⟩ := jsTrim_coalesce_ok _ _ h2.1
    obtain ⟨b, hb⟩ := jsTrim_coalesce_ok _ _ h2.2
    exact ⟨some ⟨a, b⟩, by simp [normVariant, hg, ha, hb]⟩
  · exact ⟨none, by simp [normVariant, hg]⟩

theorem normVariants_ok (vs : List JSVal) (h : vs.all variantEntrySafe = true) :
    ∃ l, normVariants vs = .ok l := by
  induction vs with
  | nil => exact ⟨[], rfl⟩
  | cons v rest ih =>
    simp only [List.all_cons, Bool.and_eq_true] at h
    obtain ⟨o, ho⟩ := normVariant_ok v h.1
    obtain ⟨tl, htl⟩ := ih h.2
    cases o with
    | some w => exact ⟨w :: tl, by simp [normVariants, ho, htl]⟩
    | none => exact ⟨tl, by simp [normVariants, ho, htl]⟩

theorem normalizeItem_ok (x : JSVal) (id : String) (h : itemTrimSafe x = true) :
    ∃ it, normalizeItem x id = .ok it := by
  simp only [itemTrimSafe, Bool.and_eq_true] at h
  obtain ⟨t, ht⟩ := jsOr_empty_is_str _ h.1
  have hvars : ∃ l, normVariantsOf x = .ok l := by
    cases hv : getField x "variants" with
    | arr vs =>
      have h2 := h.2
      rw [hv] at h2
      obtain ⟨l, hl⟩ := normVariants_ok vs h2
      exact ⟨l, by simp [normVariantsOf, hv, hl]⟩
    | undefined => exact ⟨[], by simp [normVariantsOf, hv]⟩
    | null => exact ⟨[], by simp [normVariantsOf, hv]⟩
    | bool b => exact ⟨[], by simp [normVariantsOf, hv]⟩
    | num n => exact ⟨[], by simp [normVariantsOf, hv]⟩
    | str s => exact ⟨[], by simp [normVariantsOf, hv]⟩
    | obj fs => exact ⟨[], by simp [normVariantsOf, hv]⟩
    | fn r => exact ⟨[], by simp [normVariantsOf, hv]⟩
  obtain ⟨l, hl⟩ := hvars
  cases hres : normalizeItem x id with
  | ok it => exact ⟨it, rfl⟩
  | error e => simp [normalizeItem, ht, jsTrim, hl] at hres

/-- Claim C9 counterexample: the default resolver is not total — on a
record whose `description` field is the number `1`, the expression
`(x.description || '').trim()` calls `.trim()` on a number and throws
a `TypeError`. -/
theorem defaultResolveItem_throws_cex :
    defaultResolveItem "a"
      (.arr [.obj [("id", .str "a"), ("description", .num 1)]]) =
      .error () := rfl

/-- Claim C9 (amended): the default resolver never throws and returns
a canonically shaped item — `description` and `url` strings, variants
a list of trimmed string pairs with non-object entries discarded, as
enforced by the `Item`/`Variant` types — provided that every field the
normalizer trims (the record's `description`, and the first non-nullish
of `variant`/`name` and of `param`/`params` on each object variant
entry) is textual or absent. -/
theorem defaultResolveItem_total_of_trimSafe (id : String) (ds : JSVal)
    (h : ∀ x, lookupRaw id ds = some x → itemTrimSafe x = true) :
    ∃ it, defaultResolveItem id ds = .ok it := by
  cases ds with
  | arr xs =>
    cases hfind : lookupRaw id (.arr xs) with
    | none => exact ⟨fallbackItem id, by simp [defaultResolveItem, truthy, hfind]⟩
    | some x =>
      obtain ⟨it, hit⟩ := normalizeItem_ok x id (h x hfind)
      exact ⟨it, by simp [defaultResolveItem, truthy, hfind, hit]⟩
  | obj fs =>
    cases hfind : lookupRaw id (.obj fs) with
    | none => exact ⟨fallbackItem id, by simp [defaultResolveItem, truthy, hfind]⟩
    | some x =>
      obtain ⟨it, hit⟩ := normalizeItem_ok x id (h x hfind)
      exact ⟨it, by simp [defaultResolveItem, truthy, hfind, hit]⟩
  | undefined => exact ⟨fallbackItem id, rfl⟩
  | null => exact ⟨fallbackItem id, rfl⟩
  | bool b => cases b <;> exact ⟨fallbackItem id, rfl⟩
  | num n =>
    refine ⟨fallbackItem id, ?_⟩
    by_cases hn : (n != 0) = true <;> simp [defaultResolveItem, truthy, hn]
  | str s =>
    refine ⟨fallbackItem id, ?_⟩
    by_cases hs : (s != "") = true <;> simp [defaultResolveItem, truthy, hs]
  | fn r => exact ⟨fallbackItem id, rfl⟩

/-- Closed instance of `defaultResolveItem_total_of_trimSafe` on a
well-typed one-record dataset. -/
theorem defaultResolveItem_total_of_trimSafe_witness :
    ∃ it, defaultResolveItem "a"
      (.arr [.obj [("id", .str "a"), ("url", .str "u"),
        ("variants", .arr [.obj [("name", .str " s1 ")], .num 3])]]) =
      .ok it :=
  defaultResolveItem_total_of_trimSafe "a" _ (fun x hx => by
    have h2 : (some (JSVal.obj [("id", .str "a"), ("url", .str "u"),
      ("variants", .arr [.obj [("name", .str " s1 ")], .num 3])]) :
        Option JSVal) = some x := hx
    cases h2
    decide)

/-! ## Claim C6 -/

/-- Claim C6 counterexample: on the parameter string `" a=1"` the code
trims the entry before splitting and sets the key `"a"`, while the
claim's split-then-set reading (no trimming, formalized by
`claimMergeCore`) would set the key `" a"`. -/
theorem appendParamString_claim_split_cex :
    appendParamCore [] " a=1" = [("a", "1")] ∧
    claimMergeCore [] " a=1" = [(" a", "1")] ∧
    appendParamCore [] " a=1" ≠ claimMergeCore [] " a=1" := by
  refine ⟨rfl, rfl, ?_⟩
  decide

/-- Claim C6 (amended): `appendParamString` splits the parameter string
on `&`, trims each entry and drops blank ones, splits each remaining
entry at its first `=`, skips entries without `=` or with an empty key
(all captured by `appendParamPairs`), and sets each surviving key/value
as a query parameter: the resulting value of any key `k` is the last
value the entry list assigns to `k`, overriding earlier entries and any
pre-existing parameter, while keys never assigned keep their prior
value. -/
theorem appendParamCore_override_semantics (q : List (String × String))
    (paramStr : String) (k : String) :
    getParam (appendParamCore q paramStr) k =
      lastVal (appendParamPairs paramStr) k (getParam q k) :=
  getParam_foldl_setParam (appendParamPairs paramStr) q k

/-! ## Claim C10 -/

/-- Claim C10 (confirmed): `appendParamString` only adds or overrides
the keys listed in the parameter string — any query parameter of the
input whose key is not among the parsed entries is left unchanged. -/
theorem appendParamCore_frame (q : List (String × String))
    (paramStr k : String)
    (h : ∀ kv ∈ appendParamPairs paramStr, kv.1 ≠ k) :
    getParam (appendParamCore q paramStr) k = getParam q k := by
  show getParam ((appendParamPairs paramStr).foldl
    (fun acc kv => setParam acc kv.1 kv.2) q) k = getParam q k
  rw [getParam_foldl_setParam]
  exact lastVal_of_no_key _ _ _ h

/-- Closed instance of `appendParamCore_frame`: merging `a=1&b=2` keeps
the unrelated pre-existing parameter `x`. -/
theorem appendParamCore_frame_witness :
    getParam (appendParamCore [("x", "0")] "a=1&b=2") "x" =
      getParam [("x", "0")] "x" :=
  appendParamCore_frame [("x", "0")] "a=1&b=2" "x" (by decide)

/-! ## Claim C7 -/

/-- Claim C7 (confirmed): the variant-application step of the pipeline
(`u.searchParams.set('variant', v)`, lines 47-49) is idempotent — in
particular applying the same override twice yields the same `variant`
query parameter value as applying it once. -/
theorem urlSetParam_variant_idempotent (u : JURL) (v : String) :
    urlSetParam (urlSetParam u "variant" v) "variant" v =
      urlSetParam u "variant" v ∧
    getParam (queryOf (urlSetParam (urlSetParam u "variant" v) "variant" v))
        "variant" =
      getParam (queryOf (urlSetParam u "variant" v)) "variant" := by
  cases u with
  | special sch h p q =>
    refine ⟨?_, ?_⟩ <;> simp [urlSetParam, queryOf, setParam_idem]
  | nonSpecial sch rest => exact ⟨rfl, rfl⟩

/-! ## Percent-encoding round trip -/

theorem isHexDigit_hexDigitChar : ∀ d, d < 16 → isHexDigit (hexDigitChar d) = true := by
  decide

theorem hexVal_hexDigitChar : ∀ d, d < 16 → hexVal (hexDigitChar d) = d := by
  decide

theorem hexDigitChar_not_special : ∀ d, d < 16 →
    hexDigitChar d ≠ '&' ∧ hexDigitChar d ≠ '=' ∧ hexDigitChar d ≠ '#' := by
  decide

theorem mem_formEncodeChar_not_special (c c' : Char)
    (h : c' ∈ formEncodeChar c) : c' ≠ '&' ∧ c' ≠ '=' ∧ c' ≠ '#' := by
  unfold formEncodeChar at h
  by_cases h1 : (c == ' ') = true
  · rw [if_pos h1] at h
    simp only [List.mem_singleton] at h
    subst h
    refine ⟨by decide, by decide, by decide⟩
  · rw [if_neg h1] at h
    by_cases h2 : isFormSafe c = true
    · rw [if_pos h2] at h
      simp only [List.mem_singleton] at h
      subst h
      refine ⟨?_, ?_, ?_⟩ <;> intro hc <;> subst hc <;> revert h2 <;> decide
    · rw [if_neg h2] at h
      by_cases h3 : c.toNat ≤ 255
      · rw [if_pos h3] at h
        simp only [hex2, List.mem_cons, List.not_mem_nil, or_false] at h
        rcases h with h | h | h
        · subst h; refine ⟨by decide, by decide, by decide⟩
        · subst h
          exact hexDigitChar_not_special (c.toNat / 16) (by omega)
        · subst h
          exact hexDigitChar_not_special (c.toNat % 16) (Nat.mod_lt _ (by decide))
      · rw [if_neg h3] at h
        simp only [List.mem_singleton] at h
        subst h
        refine ⟨?_, ?_, ?_⟩ <;> intro hc <;> subst hc <;> exact h3 (by decide)

theorem mem_formEncode_not_special (s : List Char) (c' : Char)
    (h : c' ∈ formEncode s) : c' ≠ '&' ∧ c' ≠ '=' ∧ c' ≠ '#' := by
  induction s with
  | nil => simp [formEncode] at h
  | cons c rest ih =>
    simp only [formEncode, List.mem_append] at h
    rcases h with h | h
    · exact mem_formEncodeChar_not_special c c' h
    · exact ih h

theorem formDecodeFuel_formEncode (cs : List Char) :
    ∀ fuel, (formEncode cs).length ≤ fuel →
      formDecodeFuel fuel (formEncode cs) = cs := by
  induction cs with
  | nil => intro fuel _; cases fuel <;> rfl
  | cons c rest ih =>
    intro fuel hf
    simp only [formEncode] at hf ⊢
    by_cases h1 : (c == ' ') = true
    · have hc : c = ' ' := eq_of_beq h1
      simp only [formEncodeChar, h1, if_pos] at hf ⊢
      simp only [List.singleton_append, List.length_cons] at hf ⊢
      cases fuel with
      | zero => omega
      | succ f =>
        show formDecodeFuel (f + 1) ('+' :: formEncode rest) = c :: rest
        simp only [formDecodeFuel]
        rw [if_pos (by decide)]
        rw [ih f (by omega), hc]
    · rw [formEncodeChar, if_neg h1] at hf ⊢
      by_cases h2 : isFormSafe c = true
      · rw [if_pos h2] at hf ⊢
        simp only [List.singleton_append, List.length_cons] at hf ⊢
        cases fuel with
        | zero => omega
        | succ f =>
          show formDecodeFuel (f + 1) (c :: formEncode rest) = c :: rest
          simp only [formDecodeFuel]
          have hplus : (c == '+') = false := by
            cases hcc : (c == '+') with
            | false => rfl
            | true => rw [eq_of_beq hcc] at h2; exact absurd h2 (by decide)
          have hpct : (c == '%') = false := by
            cases hcc : (c == '%') with
            | false => rfl
            | true => rw [eq_of_beq hcc] at h2; exact absurd h2 (by decide)
          rw [if_neg (by simp [hplus]), if_neg (by simp [hpct])]
          rw [ih f (by omega)]
      · rw [if_neg h2] at hf ⊢
        by_cases h3 : c.toNat ≤ 255
        · rw [if_pos h3] at hf ⊢
          simp only [hex2, List.cons_append, List.nil_append,
            List.length_cons] at hf ⊢
          cases fuel with
          | zero => omega
          | succ f =>
            show formDecodeFuel (f + 1) ('%' :: hexDigitChar (c.toNat / 16) ::
              hexDigitChar (c.toNat % 16) :: formEncode rest) = c :: rest
            simp only [formDecodeFuel]
            rw [if_neg (by decide), if_pos (by decide)]
            have hd1 : c.toNat / 16 < 16 := by omega
            have hd2 : c.toNat % 16 < 16 := Nat.mod_lt _ (by decide)
            rw [if_pos (by
              rw [isHexDigit_hexDigitChar _ hd1, isHexDigit_hexDigitChar _ hd2]
              rfl)]
            rw [hexVal_hexDigitChar _ hd1, hexVal_hexDigitChar _ hd2]
            rw [Nat.div_add_mod, Char.ofNat_toNat]
            rw [ih f (by omega)]
        · rw [if_neg h3] at hf ⊢
          simp only [List.singleton_append, List.length_cons] at hf ⊢
          cases fuel with
          | zero => omega
          | succ f =>
            show formDecodeFuel (f + 1) (c :: formEncode rest) = c :: rest
            simp only [formDecodeFuel]
            have hplus : (c == '+') = false := by
              cases hcc : (c == '+') with
              | false => rfl
              | true => rw [eq_of_beq hcc] at h3; exact absurd (by decide) h3
            have hpct : (c == '%') = false := by
              cases hcc : (c == '%') with
              | false => rfl
              | true => rw [eq_of_beq hcc] at h3; exact absurd (by decide) h3
            rw [if_neg (by simp [hplus]), if_neg (by simp [hpct])]
            rw [ih f (by omega)]

theorem formDecode_formEncode (cs : List Char) :
    formDecode (formEncode cs) = cs :=
  formDecodeFuel_formEncode cs _ (Nat.le_refl _)

/-! ## Query string round trip -/

theorem splitOnChar_of_no_sep (sep : Char) (cs : List Char)
    (h : ∀ c ∈ cs, c ≠ sep) : splitOnChar sep cs = [cs] := by
  induction cs with
  | nil => rfl
  | cons c rest ih =>
    have hc : (c == sep) = false := by
      simp [h c (List.mem_cons_self c rest)]
    have ih2 := ih (fun c2 hc2 => h c2 (List.mem_cons_of_mem c hc2))
    simp only [splitOnChar, hc, Bool.false_eq_true, if_false, ih2]

theorem splitOnChar_append (sep : Char) (xs ys : List Char)
    (h : ∀ c ∈ xs, c ≠ sep) :
    splitOnChar sep (xs ++ sep :: ys) = xs :: splitOnChar sep ys := by
  induction xs with
  | nil => simp [splitOnChar]
  | cons x xs ih =>
    have hx : (x == sep) = false := by
      simp [h x (List.mem_cons_self x xs)]
    have ih2 := ih (fun c2 hc2 => h c2 (List.mem_cons_of_mem x hc2))
    simp only [List.cons_append, splitOnChar, hx, Bool.false_eq_true, if_false]
    show (match splitOnChar sep (xs ++ sep :: ys) with
      | [] => [[x]] | g :: gs => (x :: g) :: gs) =
      (x :: xs) :: splitOnChar sep ys
    rw [ih2]

theorem parseQueryPiece_encode (k v : String) :
    parseQueryPiece (formEncode k.data ++ '=' :: formEncode v.data) =
      some (k, v) := by
  have hempty : (formEncode k.data ++ '=' :: formEncode v.data).isEmpty = false := by
    cases hk : formEncode k.data <;> simp [hk]
  have hkeq : ∀ c ∈ formEncode k.data, (c != '=') = true := by
    intro c hc
    simp [(mem_formEncode_not_special k.data c hc).2.1]
  have htake : (formEncode k.data ++ '=' :: formEncode v.data).takeWhile
      (fun c => c != '=') = formEncode k.data := by
    rw [List.takeWhile_append_of_pos hkeq]
    simp [List.takeWhile_cons]
  have hlen : (formEncode k.data).length ≠
      (formEncode k.data ++ '=' :: formEncode v.data).length := by
    rw [List.length_append, List.length_cons]
    omega
  have hdrop : (formEncode k.data ++ '=' :: formEncode v.data).drop
      ((formEncode k.data).length + 1) = formEncode v.data := by
    rw [show formEncode k.data ++ '=' :: formEncode v.data =
      (formEncode k.data ++ ['=']) ++ formEncode v.data by simp]
    exact List.drop_left' (by simp)
  rw [parseQueryPiece, if_neg (by simp [hempty])]
  simp only [htake, hdrop]
  rw [if_neg hlen]
  rw [formDecode_formEncode, formDecode_formEncode]

theorem parseQuery_serializeQuery (q : List (String × String)) :
    parseQuery (serializeQuery q) = q := by
  induction q with
  | nil => rfl
  | cons kv rest ih =>
    have hpiece : ∀ c ∈ formEncode kv.1.data ++ '=' :: formEncode kv.2.data,
        c ≠ '&' := by
      intro c hc
      rcases List.mem_append.mp hc with h | h
      · exact (mem_formEncode_not_special _ c h).1
      · rcases List.mem_cons.mp h with h | h
        · subst h; decide
        · exact (mem_formEncode_not_special _ c h).1
    cases rest with
    | nil =>
      show parseQuery (intercalateChar '&'
        [formEncode kv.1.data ++ '=' :: formEncode kv.2.data]) = [kv]
      rw [intercalateChar, parseQuery,
        splitOnChar_of_no_sep '&' _ hpiece]
      simp [parseQueryPiece_encode]
    | cons kv2 rest2 =>
      show parseQuery (intercalateChar '&'
        ((formEncode kv.1.data ++ '=' :: formEncode kv.2.data) ::
          (formEncode kv2.1.data ++ '=' :: formEncode kv2.2.data) ::
          rest2.map (fun kv => formEncode kv.1.data ++ '=' ::
            formEncode kv.2.data))) = kv :: kv2 :: rest2
      rw [show intercalateChar '&'
          ((formEncode kv.1.data ++ '=' :: formEncode kv.2.data) ::
            (formEncode kv2.1.data ++ '=' :: formEncode kv2.2.data) ::
            rest2.map (fun kv => formEncode kv.1.data ++ '=' ::
              formEncode kv.2.data)) =
        (formEncode kv.1.data ++ '=' :: formEncode kv.2.data) ++ '&' ::
          intercalateChar '&'
            ((formEncode kv2.1.data ++ '=' :: formEncode kv2.2.data) ::
              rest2.map (fun kv => formEncode kv.1.data ++ '=' ::
                formEncode kv.2.data)) from rfl]
      rw [parseQuery, splitOnChar_append '&' _ _ hpiece]
      rw [List.filterMap_cons]
      rw [parseQueryPiece_encode]
      have ih2 : parseQuery (intercalateChar '&'
          ((formEncode kv2.1.data ++ '=' :: formEncode kv2.2.data) ::
            rest2.map (fun kv => formEncode kv.1.data ++ '=' ::
              formEncode kv.2.data))) = kv2 :: rest2 := ih
      rw [parseQuery] at ih2
      rw [ih2]

/-! ## URL parse/serialize round trip -/

theorem takeWhile_all_eq (p : Char → Bool) (l : List Char)
    (h : ∀ c ∈ l, p c = true) : l.takeWhile p = l := by
  induction l with
  | nil => rfl
  | cons c rest ih =>
    rw [List.takeWhile_cons, if_pos (h c (List.mem_cons_self c rest))]
    rw [ih (fun c2 hc2 => h c2 (List.mem_cons_of_mem c hc2))]

theorem dropWhile_all_nil (p : Char → Bool) (l : List Char)
    (h : ∀ c ∈ l, p c = true) : l.dropWhile p = [] := by
  induction l with
  | nil => rfl
  | cons c rest ih =>
    rw [List.dropWhile_cons, if_pos (h c (List.mem_cons_self c rest))]
    exact ih (fun c2 hc2 => h c2 (List.mem_cons_of_mem c hc2))

theorem mem_intercalateChar (sep : Char) (xss : List (List Char)) (c : Char)
    (h : c ∈ intercalateChar sep xss) : c = sep ∨ ∃ xs ∈ xss, c ∈ xs := by
  induction xss with
  | nil => simp [intercalateChar] at h
  | cons xs xss ih =>
    cases xss with
    | nil =>
      right
      exact ⟨xs, List.mem_cons_self xs [], by simpa [intercalateChar] using h⟩
    | cons ys yss =>
      rw [show intercalateChar sep (xs :: ys :: yss) =
        xs ++ sep :: intercalateChar sep (ys :: yss) from rfl] at h
      rcases List.mem_append.mp h with h2 | h2
      · exact Or.inr ⟨xs, List.mem_cons_self xs _, h2⟩
      · rcases List.mem_cons.mp h2 with h3 | h3
        · exact Or.inl h3
        · rcases ih h3 with h4 | ⟨zs, hz1, hz2⟩
          · exact Or.inl h4
          · exact Or.inr ⟨zs, List.mem_cons_of_mem xs hz1, hz2⟩

theorem serializeQuery_no_hash (q : List (String × String)) (c : Char)
    (h : c ∈ serializeQuery q) : c ≠ '#' := by
  rcases mem_intercalateChar '&' _ c h with h2 | ⟨xs, hx1, hx2⟩
  · subst h2; decide
  · rcases List.mem_map.mp hx1 with ⟨kv, _, hkv⟩
    subst hkv
    rcases List.mem_append.mp hx2 with h3 | h3
    · exact (mem_formEncode_not_special _ c h3).2.2
    · rcases List.mem_cons.mp h3 with h4 | h4
      · subst h4; decide
      · exact (mem_formEncode_not_special _ c h4).2.2

theorem takeScheme_append (sch after : List Char)
    (h : ∀ c ∈ sch, isSchemeChar c = true) :
    takeScheme (sch ++ ':' :: after) = some (sch, after) := by
  induction sch with
  | nil => rfl
  | cons c rest ih =>
    have hchar : isSchemeChar c = true := h c (List.mem_cons_self c rest)
    have hne : (c == ':') = false := by
      cases hcc : (c == ':') with
      | false => rfl
      | true => rw [eq_of_beq hcc] at hchar; exact absurd hchar (by decide)
    show takeScheme (c :: (rest ++ ':' :: after)) = some (c :: rest, after)
    rw [takeScheme]
    rw [if_neg (by simp [hne]), if_pos hchar]
    rw [ih (fun c2 hc2 => h c2 (List.mem_cons_of_mem c hc2))]

theorem splitScheme_append (schD after : List Char) (h0 : schD ≠ [])
    (hstart : ∀ c, schD.head? = some c → isSchemeStart c = true)
    (hchars : ∀ c ∈ schD, isSchemeChar c = true) :
    splitScheme (schD ++ ':' :: after) = some (schD, after) := by
  cases schD with
  | nil => exact absurd rfl h0
  | cons c tl =>
    show splitScheme (c :: (tl ++ ':' :: after)) = some (c :: tl, after)
    rw [splitScheme, if_pos (hstart c rfl)]
    exact takeScheme_append (c :: tl) after hchars

theorem parseUrl_eq_of_splitScheme (s : String) (b : Option JURL)
    (schD after : List Char)
    (h : splitScheme (stripFrag s.data) = some (schD, after)) :
    parseUrl s b =
      (if ((⟨schD.map lowerChar⟩ : String) == "http"
          || (⟨schD.map lowerChar⟩ : String) == "https") then
        match after with
        | a :: b2 :: rest =>
          if a == '/' && b2 == '/' then
            parseAuthority ⟨schD.map lowerChar⟩ rest
          else none
        | _ => none
      else some (.nonSpecial ⟨schD.map lowerChar⟩ ⟨after⟩)) := by
  simp only [parseUrl, h]

theorem parseAuthority_round (sch host path : String)
    (q : List (String × String)) (qt : List Char)
    (hhostne : host.data ≠ [])
    (hhost : ∀ c ∈ host.data, c ≠ '/' ∧ c ≠ '?' ∧ c ≠ '#')
    (hprex : ∃ pr, path.data = '/' :: pr)
    (hpath : ∀ c ∈ path.data, c ≠ '?' ∧ c ≠ '#')
    (hqt : (qt = [] ∧ q = []) ∨ (qt = '?' :: serializeQuery q ∧ q ≠ [])) :
    parseAuthority sch (host.data ++ (path.data ++ qt)) =
      some (.special sch host path q) := by
  obtain ⟨pr, hpr⟩ := hprex
  have hostAll : ∀ c ∈ host.data, (!isHostDelim c) = true := by
    intro c hc
    obtain ⟨h1, h2, h3⟩ := hhost c hc
    simp [isHostDelim, h1, h2, h3]
  have hprAll : ∀ c ∈ pr, (c != '?') = true := by
    intro c hc
    have : c ∈ path.data := by rw [hpr]; exact List.mem_cons_of_mem _ hc
    simp [(hpath c this).1]
  have htake : (host.data ++ (path.data ++ qt)).takeWhile
      (fun c => !isHostDelim c) = host.data := by
    rw [List.takeWhile_append_of_pos hostAll, hpr, List.cons_append,
      List.takeWhile_cons, if_neg (by decide)]
    simp
  have hdrop : (host.data ++ (path.data ++ qt)).dropWhile
      (fun c => !isHostDelim c) = '/' :: (pr ++ qt) := by
    rw [List.dropWhile_append_of_pos hostAll, hpr, List.cons_append,
      List.dropWhile_cons, if_neg (by decide)]
  have hie : host.data.isEmpty = false := by
    cases hh : host.data with
    | nil => exact absurd hh hhostne
    | cons a tl => rfl
  simp only [parseAuthority, htake, hdrop, hie, Bool.false_eq_true, if_false]
  simp only [parsePathQuery]
  rw [if_neg (by decide), if_pos (by decide)]
  rcases hqt with ⟨hqt1, hqt2⟩ | ⟨hqt1, hqt2⟩
  · subst hqt1; subst hqt2
    rw [List.append_nil]
    rw [takeWhile_all_eq _ pr hprAll, dropWhile_all_nil _ pr hprAll]
    show some (JURL.special sch ⟨host.data⟩ ⟨'/' :: pr⟩ []) =
      some (JURL.special sch host path [])
    rw [← hpr]
  · subst hqt1
    rw [List.takeWhile_append_of_pos hprAll,
      List.dropWhile_append_of_pos hprAll]
    rw [List.takeWhile_cons, if_neg (by decide)]
    rw [List.dropWhile_cons, if_neg (by decide)]
    rw [List.append_nil]
    show (if (('?' : Char) == '?') = true then
        some (JURL.special sch ⟨host.data⟩ ⟨'/' :: pr⟩
          (parseQuery (serializeQuery q)))
      else some (JURL.special sch ⟨host.data⟩ ⟨'/' :: pr⟩ [])) =
      some (JURL.special sch host path q)
    rw [if_pos (by decide), parseQuery_serializeQuery, ← hpr]

theorem parseUrl_toStr_roundtrip (sch host path : String)
    (q : List (String × String)) (b : Option JURL)
    (hsch : sch = "http" ∨ sch = "https")
    (hhostne : host.data ≠ [])
    (hhost : ∀ c ∈ host.data, c ≠ '/' ∧ c ≠ '?' ∧ c ≠ '#')
    (hprex : ∃ pr, path.data = '/' :: pr)
    (hpath : ∀ c ∈ path.data, c ≠ '?' ∧ c ≠ '#') :
    parseUrl (JURL.toStr (.special sch host path q)) b =
      some (.special sch host path q) := by
  have hschChars : ∀ c ∈ sch.data, isSchemeChar c = true := by
    rcases hsch with h | h <;> subst h <;> decide
  have hschHash : ∀ c ∈ sch.data, c ≠ '#' := by
    rcases hsch with h | h <;> subst h <;> decide
  have hschNe : sch.data ≠ [] := by
    rcases hsch with h | h <;> subst h <;> decide
  have hschStart : ∀ c, sch.data.head? = some c → isSchemeStart c = true := by
    rcases hsch with h | h <;> subst h <;>
      (intro c hc
       have h2 : some 'h' = some c := hc
       injection h2 with h3
       rw [← h3]
       decide)
  have hlower : (⟨sch.data.map lowerChar⟩ : String) = sch := by
    rcases hsch with h | h <;> subst h <;> decide
  have hbeq : ((sch == "http") || (sch == "https")) = true := by
    rcases hsch with h | h <;> subst h <;> decide
  have hsep : ("://" : String).data = [':', '/', '/'] := rfl
  cases q with
  | nil =>
    have hdata : (JURL.toStr (.special sch host path [])).data =
        sch.data ++ ':' :: '/' :: '/' :: (host.data ++ (path.data ++ [])) := by
      show (sch ++ "://" ++ host ++ path ++ "").data = _
      simp [String.data_append, hsep]
    have hnohash : ∀ c ∈ (JURL.toStr (.special sch host path [])).data,
        (c != '#') = true := by
      rw [hdata]
      intro c hc
      rcases List.mem_append.mp hc with h | h
      · simp [hschHash c h]
      · rcases List.mem_cons.mp h with h | h
        · subst h; decide
        · rcases List.mem_cons.mp h with h | h
          · subst h; decide
          · rcases List.mem_cons.mp h with h | h
            · subst h; decide
            · rcases List.mem_append.mp h with h | h
              · simp [(hhost c h).2.2]
              · rcases List.mem_append.mp h with h | h
                · simp [(hpath c h).2]
                · simp at h
    have hstrip : stripFrag (JURL.toStr (.special sch host path [])).data =
        (JURL.toStr (.special sch host path [])).data :=
      takeWhile_all_eq _ _ hnohash
    have hsp : splitScheme
        (stripFrag (JURL.toStr (.special sch host path [])).data) =
        some (sch.data, '/' :: '/' :: (host.data ++ (path.data ++ []))) := by
      rw [hstrip, hdata]
      exact splitScheme_append sch.data _ hschNe hschStart hschChars
    rw [parseUrl_eq_of_splitScheme _ b sch.data _ hsp]
    simp only [hlower]
    rw [hbeq, if_pos rfl]
    show (if (('/' : Char) == '/' && ('/' : Char) == '/') = true then
        parseAuthority sch (host.data ++ (path.data ++ [])) else none) =
      some (JURL.special sch host path [])
    rw [if_pos (by decide)]
    exact parseAuthority_round sch host path [] [] hhostne hhost hprex hpath
      (Or.inl ⟨rfl, rfl⟩)
  | cons kv rest =>
    have hdata : (JURL.toStr (.special sch host path (kv :: rest))).data =
        sch.data ++ ':' :: '/' :: '/' :: (host.data ++ (path.data ++
          ('?' :: serializeQuery (kv :: rest)))) := by
      show (sch ++ "://" ++ host ++ path ++
        ("?" ++ ⟨serializeQuery (kv :: rest)⟩)).data = _
      simp [String.data_append, hsep]
    have hnohash : ∀ c ∈ (JURL.toStr (.special sch host path (kv :: rest))).data,
        (c != '#') = true := by
      rw [hdata]
      intro c hc
      rcases List.mem_append.mp hc with h | h
      · simp [hschHash c h]
      · rcases List.mem_cons.mp h with h | h
        · subst h; decide
        · rcases List.mem_cons.mp h with h | h
          · subst h; decide
          · rcases List.mem_cons.mp h with h | h
            · subst h; decide
            · rcases List.mem_append.mp h with h | h
              · simp [(hhost c h).2.2]
              · rcases List.mem_append.mp h with h | h
                · simp [(hpath c h).2]
                · rcases List.mem_cons.mp h with h | h
                  · subst h; decide
                  · simp [serializeQuery_no_hash _ c h]
    have hstrip : stripFrag
        (JURL.toStr (.special sch host path (kv :: rest))).data =
        (JURL.toStr (.special sch host path (kv :: rest))).data :=
      takeWhile_all_eq _ _ hnohash
    have hsp : splitScheme
        (stripFrag (JURL.toStr (.special sch host path (kv :: rest))).data) =
        some (sch.data, '/' :: '/' :: (host.data ++ (path.data ++
          ('?' :: serializeQuery (kv :: rest))))) := by
      rw [hstrip, hdata]
      exact splitScheme_append sch.data _ hschNe hschStart hschChars
    rw [parseUrl_eq_of_splitScheme _ b sch.data _ hsp]
    simp only [hlower]
    rw [hbeq, if_pos rfl]
    show (if (('/' : Char) == '/' && ('/' : Char) == '/') = true then
        parseAuthority sch (host.data ++ (path.data ++
          ('?' :: serializeQuery (kv :: rest)))) else none) =
      some (JURL.special sch host path (kv :: rest))
    rw [if_pos (by decide)]
    exact parseAuthority_round sch host path (kv :: rest)
      ('?' :: serializeQuery (kv :: rest)) hhostne hhost hprex hpath
      (Or.inr ⟨rfl, by simp⟩)

theorem httpProtocolTest_of_scheme (sch : String)
    (hsch : sch = "http" ∨ sch = "https") :
    httpProtocolTest (sch ++ ":") = true := by
  rcases hsch with h | h <;> subst h <;> decide

theorem toStr_special_ne_empty (sch host path : String)
    (q : List (String × String)) :
    JURL.toStr (.special sch host path q) ≠ "" := by
  intro hh
  have hl := congrArg String.length hh
  simp only [JURL.toStr] at hl
  rw [String.length_append, String.length_append, String.length_append,
    String.length_append] at hl
  rw [show ("://" : String).length = 3 from rfl] at hl
  rw [show ("" : String).length = 0 from rfl] at hl
  omega

theorem sanitizeFinalUrl_roundtrip (origin : JURL) (sch host path : String)
    (q : List (String × String))
    (hsch : sch = "http" ∨ sch = "https")
    (hhostne : host.data ≠ [])
    (hhost : ∀ c ∈ host.data, c ≠ '/' ∧ c ≠ '?' ∧ c ≠ '#')
    (hprex : ∃ pr, path.data = '/' :: pr)
    (hpath : ∀ c ∈ path.data, c ≠ '?' ∧ c ≠ '#') :
    sanitizeFinalUrl origin (JURL.toStr (.special sch host path q)) =
      JURL.toStr (.special sch host path q) := by
  have hp := parseUrl_toStr_roundtrip sch host path q (some origin) hsch
    hhostne hhost hprex hpath
  simp only [sanitizeFinalUrl, hp, protocolOf]
  simp [httpProtocolTest_of_scheme sch hsch]

/-! ## Well-formedness of parser output -/

theorem takeScheme_mem_after (cs : List Char) :
    ∀ sch after, takeScheme cs = some (sch, after) → ∀ c ∈ after, c ∈ cs := by
  induction cs with
  | nil => intro sch after h; simp [takeScheme] at h
  | cons c0 rest ih =>
    intro sch after h
    rw [takeScheme] at h
    by_cases h1 : (c0 == ':') = true
    · rw [if_pos h1] at h
      simp only [Option.some.injEq, Prod.mk.injEq] at h
      intro c hc
      exact List.mem_cons_of_mem c0 (h.2 ▸ hc)
    · rw [if_neg h1] at h
      by_cases h2 : isSchemeChar c0 = true
      · rw [if_pos h2] at h
        cases htk : takeScheme rest with
        | none => rw [htk] at h; exact Option.noConfusion h
        | some pr2 =>
          obtain ⟨s2, a2⟩ := pr2
          rw [htk] at h
          simp only [Option.some.injEq, Prod.mk.injEq] at h
          intro c hc
          exact List.mem_cons_of_mem c0 (ih s2 a2 htk c (h.2 ▸ hc))
      · rw [if_neg h2] at h; exact Option.noConfusion h

theorem splitScheme_mem_after (cs sch after : List Char)
    (h : splitScheme cs = some (sch, after)) : ∀ c ∈ after, c ∈ cs := by
  cases cs with
  | nil => simp [splitScheme] at h
  | cons c0 rest =>
    rw [splitScheme] at h
    by_cases h1 : isSchemeStart c0 = true
    · rw [if_pos h1] at h
      exact takeScheme_mem_after (c0 :: rest) sch after h
    · rw [if_neg h1] at h; exact Option.noConfusion h

theorem mem_stripFrag_not_hash (cs : List Char) (c : Char)
    (h : c ∈ stripFrag cs) : c ≠ '#' := by
  have := List.mem_takeWhile_imp h
  simpa using this

theorem parsePathQuery_wf (schL : String) (hostD rem : List Char)
    (sch host path : String) (q : List (String × String))
    (hmem : ∀ c ∈ rem, c ≠ '#')
    (h : parsePathQuery schL hostD rem = some (.special sch host path q)) :
    sch = schL ∧ host.data = hostD ∧
      (∃ pr, path.data = '/' :: pr) ∧ (∀ c ∈ path.data, c ≠ '?' ∧ c ≠ '#') := by
  cases rem with
  | nil =>
    simp only [parsePathQuery, Option.some.injEq, JURL.special.injEq] at h
    obtain ⟨h1, h2, h3, h4⟩ := h
    refine ⟨h1.symm, by rw [← h2], by rw [← h3]; exact ⟨[], rfl⟩, ?_⟩
    rw [← h3]; decide
  | cons d rest2 =>
    simp only [parsePathQuery] at h
    by_cases hd1 : (d == '?') = true
    · rw [if_pos hd1] at h
      simp only [Option.some.injEq, JURL.special.injEq] at h
      obtain ⟨h1, h2, h3, h4⟩ := h
      refine ⟨h1.symm, by rw [← h2], by rw [← h3]; exact ⟨[], rfl⟩, ?_⟩
      rw [← h3]; decide
    · rw [if_neg hd1] at h
      by_cases hd2 : (d == '/') = true
      · rw [if_pos hd2] at h
        have hp2mem : ∀ c ∈ '/' :: rest2.takeWhile (fun c => c != '?'),
            c ≠ '?' ∧ c ≠ '#' := by
          intro c hc
          rcases List.mem_cons.mp hc with h5 | h5
          · subst h5; exact ⟨by decide, by decide⟩
          · constructor
            · have := List.mem_takeWhile_imp h5
              simpa using this
            · have h6 : c ∈ rest2 := (List.takeWhile_sublist _).subset h5
              exact hmem c (List.mem_cons_of_mem d h6)
        cases haft : rest2.dropWhile (fun c => c != '?') with
        | nil =>
          rw [haft] at h
          simp only [Option.some.injEq, JURL.special.injEq] at h
          obtain ⟨h1, h2, h3, h4⟩ := h
          refine ⟨h1.symm, by rw [← h2], by rw [← h3]; exact ⟨_, rfl⟩, ?_⟩
          rw [← h3]; exact hp2mem
        | cons e qcs =>
          rw [haft] at h
          simp only [] at h
          by_cases he : (e == '?') = true
          · rw [if_pos he] at h
            simp only [Option.some.injEq, JURL.special.injEq] at h
            obtain ⟨h1, h2, h3, h4⟩ := h
            refine ⟨h1.symm, by rw [← h2], by rw [← h3]; exact ⟨_, rfl⟩, ?_⟩
            rw [← h3]; exact hp2mem
          · rw [if_neg he] at h
            simp only [Option.some.injEq, JURL.special.injEq] at h
            obtain ⟨h1, h2, h3, h4⟩ := h
            refine ⟨h1.symm, by rw [← h2], by rw [← h3]; exact ⟨_, rfl⟩, ?_⟩
            rw [← h3]; exact hp2mem
      · rw [if_neg hd2] at h; exact Option.noConfusion h

theorem parseAuthority_wf (schL : String) (rest : List Char)
    (sch host path : String) (q : List (String × String))
    (hmem : ∀ c ∈ rest, c ≠ '#')
    (h : parseAuthority schL rest = some (.special sch host path q)) :
    sch = schL ∧ host.data ≠ [] ∧
      (∀ c ∈ host.data, c ≠ '/' ∧ c ≠ '?' ∧ c ≠ '#') ∧
      (∃ pr, path.data = '/' :: pr) ∧ (∀ c ∈ path.data, c ≠ '?' ∧ c ≠ '#') := by
  simp only [parseAuthority] at h
  by_cases hie : (rest.takeWhile (fun c => !isHostDelim c)).isEmpty = true
  · rw [if_pos hie] at h; exact Option.noConfusion h
  · rw [if_neg hie] at h
    have hrem : ∀ c ∈ rest.dropWhile (fun c => !isHostDelim c), c ≠ '#' :=
      fun c hc => hmem c ((List.dropWhile_sublist _).subset hc)
    obtain ⟨h1, h2, h3, h4⟩ := parsePathQuery_wf schL _ _ sch host path q hrem h
    refine ⟨h1, ?_, ?_, h3, h4⟩
    · rw [h2]
      intro hnil
      exact hie (by rw [hnil]; rfl)
    · intro c hc
      rw [h2] at hc
      have hp := List.mem_takeWhile_imp hc
      have hdelim : isHostDelim c = false := by
        cases hdd : isHostDelim c with
        | false => rfl
        | true => rw [hdd] at hp; exact absurd hp (by decide)
      simp only [isHostDelim, Bool.or_eq_false_iff, beq_eq_false_iff_ne] at hdelim
      exact ⟨hdelim.1.1, hdelim.1.2, hdelim.2⟩

theorem parseUrl_none_wf (s : String) (sch host path : String)
    (q : List (String × String))
    (h : parseUrl s none = some (.special sch host path q)) :
    (sch = "http" ∨ sch = "https") ∧ host.data ≠ [] ∧
      (∀ c ∈ host.data, c ≠ '/' ∧ c ≠ '?' ∧ c ≠ '#') ∧
      (∃ pr, path.data = '/' :: pr) ∧ (∀ c ∈ path.data, c ≠ '?' ∧ c ≠ '#') := by
  cases hsp : splitScheme (stripFrag s.data) with
  | none =>
    simp only [parseUrl, hsp] at h
    exact Option.noConfusion h
  | some pr0 =>
    obtain ⟨schD, after⟩ := pr0
    rw [parseUrl_eq_of_splitScheme s none schD after hsp] at h
    by_cases hb : ((⟨schD.map lowerChar⟩ : String) == "http"
        || (⟨schD.map lowerChar⟩ : String) == "https") = true
    · rw [if_pos hb] at h
      cases after with
      | nil => simp at h
      | cons a tl =>
        cases tl with
        | nil => simp at h
        | cons b2 rest =>
          simp only [] at h
          by_cases hslash : (a == '/' && b2 == '/') = true
          · rw [if_pos hslash] at h
            have hmem : ∀ c ∈ rest, c ≠ '#' := by
              intro c hc
              have h5 : c ∈ a :: b2 :: rest :=
                List.mem_cons_of_mem a (List.mem_cons_of_mem b2 hc)
              have h6 := splitScheme_mem_after _ _ _ hsp c h5
              exact mem_stripFrag_not_hash _ c h6
            obtain ⟨h1, hh2, hh3, hh4, hh5⟩ :=
              parseAuthority_wf _ rest sch host path q hmem h
            refine ⟨?_, hh2, hh3, hh4, hh5⟩
            rw [h1]
            simpa using hb
          · rw [if_neg hslash] at h
            exact Option.noConfusion h
    · rw [if_neg hb] at h
      simp at h

/-! ## Claim C3 -/

/-- Claim C3 (confirmed): `sanitizeFinalUrl` returns the empty string
unless the input resolves (against the page origin) to a URL whose
protocol passes `/^https?:$/i`, in which case it returns that URL's
normalized serialization.  In particular `javascript:alert(1)` is
rejected, the unparsable `http://` (empty host) is rejected, and a
valid https URL is returned in normalized absolute form. -/
theorem sanitizeFinalUrl_http_only :
    (∀ (origin : JURL) (url : String), sanitizeFinalUrl origin url ≠ "" →
      ∃ u, parseUrl url (some origin) = some u ∧
        httpProtocolTest (protocolOf u) = true ∧
        sanitizeFinalUrl origin url = JURL.toStr u) ∧
    sanitizeFinalUrl demoOrigin "javascript:alert(1)" = "" ∧
    sanitizeFinalUrl demoOrigin "http://" = "" ∧
    sanitizeFinalUrl demoOrigin "https://ok.test" = "https://ok.test/" := by
  refine ⟨?_, by decide, by decide, by decide⟩
  intro origin url h
  cases hp : parseUrl url (some origin) with
  | none => simp [sanitizeFinalUrl, hp] at h
  | some u =>
    by_cases ht : httpProtocolTest (protocolOf u) = true
    · exact ⟨u, rfl, ht, by simp [sanitizeFinalUrl, hp, ht]⟩
    · simp [sanitizeFinalUrl, hp, ht] at h

/-- Closed instance of `sanitizeFinalUrl_http_only` at the https
example input. -/
theorem sanitizeFinalUrl_http_only_witness :
    ∃ u, parseUrl "https://ok.test" (some demoOrigin) = some u ∧
      httpProtocolTest (protocolOf u) = true ∧
      sanitizeFinalUrl demoOrigin "https://ok.test" = JURL.toStr u :=
  sanitizeFinalUrl_http_only.1 demoOrigin "https://ok.test" (by decide)

/-! ## Claim C4 -/

/-- Claim C4 (confirmed): when the item's `url` field is not a string,
or is a string that trims to empty, the URL-building step of `render`
stops with the "not openable" outcome for every variant override — no
final URL is ever produced. -/
theorem buildFinalUrl_empty_url (origin : JURL) (item : JSVal)
    (variantRaw : String)
    (h : ∀ s, getField item "url" = .str s → strTrim s = "") :
    buildFinalUrl origin item variantRaw = .notOpenable := by
  have hraw : urlRawOf item = "" := by
    rw [urlRawOf]
    by_cases ht : truthy item = true
    · rw [if_pos ht]
      cases hu : getField item "url" with
      | str s => exact h s hu
      | undefined => rfl
      | null => rfl
      | bool b => rfl
      | num n => rfl
      | arr xs => rfl
      | obj fs => rfl
      | fn r => rfl
    · rw [if_neg ht]
  simp [buildFinalUrl, hraw]

/-- Closed instance of `buildFinalUrl_empty_url`: an item whose `url`
is whitespace only is not openable, even with a variant override. -/
theorem buildFinalUrl_empty_url_witness :
    buildFinalUrl demoOrigin (.obj [("id", .str "x"), ("url", .str " ")])
      "v1" = .notOpenable :=
  buildFinalUrl_empty_url demoOrigin _ "v1" (fun s hs => by
    have h2 : JSVal.str " " = JSVal.str s := hs
    injection h2 with h3
    rw [← h3]
    decide)

/-! ## Claim C5 -/

/-- Claim C5 (confirmed): with a non-empty `variants` list and an
override that matches no variant's discriminator (exact, case-sensitive
comparison of `String(v.variant)`), the pipeline still proceeds: the
warning flag is raised (`warned = true`), the `variant` query parameter
is set to the raw override value — replacing any existing `variant`
parameter, as the accompanying `getParam` conjunct states — and the
outcome is the opened final URL, so navigation is not blocked.  The
hypotheses require an item whose substituted URL parses as an absolute
`http(s)` URL, which is exactly the situation in which navigation could
happen at all. -/
theorem buildFinalUrl_unlisted_variant
    (origin : JURL) (item : JSVal) (variantRaw : String)
    (sch host path : String) (q : List (String × String)) (vs : List JSVal)
    (hvr : variantRaw ≠ "")
    (hurl : urlRawOf item ≠ "")
    (hvs : getField item "variants" = .arr vs)
    (hne : vs.isEmpty = false)
    (hmiss : vs.any (fun v => truthy v &&
      (jsToStr (getField v "variant") == variantRaw)) = false)
    (hparse : parseUrl (substUrlOf item) none =
      some (.special sch host path q)) :
    buildFinalUrl origin item variantRaw =
      .opened (JURL.toStr (.special sch host path
        (setParam q "variant" variantRaw))) true variantRaw ∧
    getParam (setParam q "variant" variantRaw) "variant" =
      some variantRaw := by
  constructor
  · obtain ⟨hsch, hhostne, hhost, hprex, hpath⟩ :=
      parseUrl_none_wf _ _ _ _ _ hparse
    have hsan := sanitizeFinalUrl_roundtrip origin sch host path
      (setParam q "variant" variantRaw) hsch hhostne hhost hprex hpath
    have hallow : variantAllowed item variantRaw = false := by
      simp only [variantAllowed, hvs]
      rw [if_neg (by simp [hne])]
      exact hmiss
    simp only [buildFinalUrl]
    rw [if_neg (by simp [hurl])]
    rw [if_neg (by simp [hvr])]
    rw [hparse]
    simp only [urlSetParam]
    rw [hsan]
    rw [if_neg (by simp [toStr_special_ne_empty sch host path
      (setParam q "variant" variantRaw)])]
    simp [hallow]
  · rw [getParam_setParam]
    simp

/-- Closed instance of `buildFinalUrl_unlisted_variant`: the override
`zz` is not in the item's variants list, yet the pipeline opens the
URL with `variant=zz` and the warning flag set. -/
theorem buildFinalUrl_unlisted_variant_witness :
    buildFinalUrl demoOrigin (.obj [("id", .str "py22a"),
      ("url", .str "https://x.test/q?id={id}"),
      ("variants", .arr [.obj [("variant", .str "s1")]])]) "zz" =
      .opened (JURL.toStr (.special "https" "x.test" "/q"
        (setParam [("id", "py22a")] "variant" "zz"))) true "zz" ∧
    getParam (setParam [("id", "py22a")] "variant" "zz") "variant" =
      some "zz" :=
  buildFinalUrl_unlisted_variant demoOrigin
    (.obj [("id", .str "py22a"),
      ("url", .str "https://x.test/q?id={id}"),
      ("variants", .arr [.obj [("variant", .str "s1")]])]) "zz"
    "https" "x.test" "/q" [("id", "py22a")]
    [.obj [("variant", .str "s1")]]
    (by decide) (by decide) rfl rfl rfl rfl
